import Mathlib

/-!
Verification development for the table-to-Markdown flattening logic of the
`prepar-data` repository.  Two independent reimplementations exist in the
source: the word-document one (`new.py`: `process_table_proper_format`,
`process_nested_table_content`, `process_regular_table`, `extract_table_data`,
`clean_cell_text`, `format_percentages`) and the presentation one
(`test.py`: `PowerPointToMarkdownConverter._process_table`).

Strings are modelled as `List Char`.  Python's whitespace set (`str.isspace`,
which also governs `str.strip` and the `\s` class of the `re` module on `str`
patterns) is modelled explicitly; `\d` is modelled as the ASCII decimal digits
and `str.lower` as ASCII lowercasing, which is faithful on every character
relevant to the behaviour under study.
-/

namespace PrepData

/-- Python's whitespace set: `str.isspace` / `re` module `\s` on `str`. -/
def isPySpace (c : Char) : Bool :=
  c = ' ' || c = '\t' || c = '\n' || c = '\r' ||
  c = '\u000b' || c = '\u000c' ||
  c = '\u001c' || c = '\u001d' || c = '\u001e' || c = '\u001f' ||
  c = '\u0085' || c = '\u00a0' || c = '\u1680' ||
  ('\u2000' ≤ c && c ≤ '\u200a') ||
  c = '\u2028' || c = '\u2029' || c = '\u202f' || c = '\u205f' || c = '\u3000'

/-- ASCII decimal digit, modelling `\d` of the percent regex. -/
def isPyDigit (c : Char) : Bool := '0' ≤ c && c ≤ '9'

/-- `text.replace('|', '&#124;')` — each pipe becomes its HTML entity. -/
def escapePipes : List Char → List Char
  | [] => []
  | c :: r =>
    if c = '|' then '&' :: '#' :: '1' :: '2' :: '4' :: ';' :: escapePipes r
    else c :: escapePipes r

/-- `text.replace(a, b)` for single characters. -/
def replaceChar (a b : Char) : List Char → List Char
  | [] => []
  | c :: r => (if c = a then b else c) :: replaceChar a b r

/-- Worker for `re.sub(r'\s+', ' ', text)`: the flag records whether we are
inside a whitespace run whose first character was already emitted as `' '`. -/
def collapseWsAux : Bool → List Char → List Char
  | _, [] => []
  | inRun, c :: r =>
    if isPySpace c then
      if inRun then collapseWsAux true r else ' ' :: collapseWsAux true r
    else c :: collapseWsAux false r

/-- `re.sub(r'\s+', ' ', text)`: every maximal whitespace run becomes one space. -/
def collapseWs (s : List Char) : List Char := collapseWsAux false s

/-- Remove the maximal trailing run of Python whitespace. -/
def dropTrailingWs : List Char → List Char
  | [] => []
  | c :: r =>
    if (dropTrailingWs r).isEmpty && isPySpace c then []
    else c :: dropTrailingWs r

/-- Python `str.strip()`: remove leading and trailing whitespace. -/
def pyStrip (s : List Char) : List Char :=
  dropTrailingWs (s.dropWhile isPySpace)

/-- Fuel-driven worker for `re.sub(r'(\d+)\s*%', r'\1%', text)`.
At a digit, the greedy scan takes the whole remaining digit run, then
optional whitespace, and requires `'%'`; on a match the whitespace is
dropped and scanning resumes after the `'%'` (non-overlapping, leftmost);
otherwise the character is copied and scanning resumes one position later. -/
def pctSubF : Nat → List Char → List Char
  | 0, s => s
  | _ + 1, [] => []
  | fuel + 1, c :: rest =>
    if isPyDigit c then
      match ((c :: rest).dropWhile isPyDigit).dropWhile isPySpace with
      | '%' :: tail => (c :: rest).takeWhile isPyDigit ++ '%' :: pctSubF fuel tail
      | _ => c :: pctSubF fuel rest
    else c :: pctSubF fuel rest

/-- `re.sub(r'(\d+)\s*%', r'\1%', text)`. -/
def pctSub (s : List Char) : List Char := pctSubF s.length s

/-- Is `pat` a leading segment of `s`? -/
def leadEq : List Char → List Char → Bool
  | [], _ => true
  | _ :: _, [] => false
  | p :: ps, c :: cs => p == c && leadEq ps cs

/-- Does `pat` occur as a contiguous segment of `s` (Python `pat in s`)? -/
def subOf (pat : List Char) : List Char → Bool
  | [] => leadEq pat []
  | c :: r => leadEq pat (c :: r) || subOf pat r

/-- `'total' in text.lower()` (ASCII lowering, see header note). -/
def hasTotal (s : List Char) : Bool :=
  subOf "total".data (s.map Char.toLower)

/-- `format_percentages` of `new.py`: tighten `digits␣%` to `digits%`,
then collapse any text mentioning "total" to the literal `"Total"`. -/
def format_percentages (text : List Char) : List Char :=
  let t := pctSub text
  if hasTotal t then "Total".data else t

/-- `clean_cell_text` of `new.py`. -/
def clean_cell_text (text : List Char) : List Char :=
  if text.isEmpty then []
  else
    let a := replaceChar '\t' ' ' (replaceChar '\r' ' '
      (replaceChar '\n' ' ' (escapePipes text)))
    format_percentages (pyStrip (collapseWs a))

/-! ## Word-document table model (`new.py`)

A docx table cell (python-docx object model) exposes `cell.paragraphs`
(each with a `.text`) and `cell.tables` (nested tables); a table exposes
`table.rows`, each with `row.cells`. -/

mutual

inductive Cell : Type where
  | mk (paragraphs : List (List Char)) (tables : List Table)

inductive Table : Type where
  | mk (rows : List (List Cell))

end

def Cell.paragraphs : Cell → List (List Char)
  | .mk p _ => p

def Cell.tables : Cell → List Table
  | .mk _ t => t

def Table.rows : Table → List (List Cell)
  | .mk r => r

/-- `' '.join(cell_text_parts)` with
`cell_text_parts = [para.text.strip() for para in cell.paragraphs if para.text.strip()]`. -/
def joinSep (sep : List Char) : List (List Char) → List Char
  | [] => []
  | [c] => c
  | c :: d :: r => c ++ sep ++ joinSep sep (d :: r)

/-- The normalized text of one cell in `extract_table_data`:
`clean_cell_text(' '.join(cell_text_parts)) or '–'`. -/
def cellFinalText (c : Cell) : List Char :=
  let t := clean_cell_text
    (joinSep [' '] ((c.paragraphs.map pyStrip).filter (fun p => !p.isEmpty)))
  if t.isEmpty then ['–'] else t

/-- The row loop of `extract_table_data`: normalize each cell, keep the row
iff `any(cell != '–' for cell in row_data)`. -/
def extractRows : List (List Cell) → List (List (List Char))
  | [] => []
  | row :: rs =>
    let rd := row.map cellFinalText
    if rd.any (fun c => !(c == ['–'])) then rd :: extractRows rs
    else extractRows rs

/-- `extract_table_data` of `new.py`. -/
def extract_table_data (t : Table) : List (List (List Char)) :=
  if t.rows.isEmpty then [] else extractRows t.rows

/-- `'| ' + ' | '.join(cells) + ' |'`. -/
def pipeRow (cells : List (List Char)) : List Char :=
  '|' :: ' ' :: (joinSep [' ', '|', ' '] cells ++ [' ', '|'])

/-- `while len(row) < w: row.append('–')` followed by `row = row[:w]`. -/
def padTrunc (w : Nat) (row : List (List Char)) : List (List Char) :=
  (row ++ List.replicate (w - row.length) (['–'] : List Char)).take w

/-- The rendering loop shared verbatim by `process_regular_table`
(lines 117–124 of `new.py`) and `process_nested_table_content`
(lines 101–108): header line, `'---'` separator, then pad/truncate each
body row to the header width. -/
def renderTableData : List (List (List Char)) → List (List Char)
  | [] => []
  | header :: body =>
    pipeRow header ::
      pipeRow (List.replicate header.length "---".data) ::
      body.map (fun r => pipeRow (padTrunc header.length r))

/-- `process_regular_table` of `new.py` (`if not table_data: return []` is the
`[]` case of `renderTableData`). -/
def process_regular_table (t : Table) : List (List Char) :=
  renderTableData (extract_table_data t)

/-- `all_tables` of `process_nested_table_content`: the nested tables of all
cells in order, extracted, keeping only those with non-empty data.  (The
`main_content` paragraph text of the containing cells is computed by the
source but never used, hence absent here.) -/
def nestedTableDatas (t : Table) : List (List (List (List Char))) :=
  t.rows.flatMap (fun row => row.flatMap (fun c =>
    (c.tables.map extract_table_data).filter (fun d => !d.isEmpty)))

/-- `process_nested_table_content` of `new.py`: render each nested table's
data, separated by one empty line (`if idx > 0: result_lines.append("")`). -/
def process_nested_table_content (t : Table) : List (List Char) :=
  match nestedTableDatas t with
  | [] => []
  | d :: rest =>
    renderTableData d ++ rest.flatMap (fun d2 => ([] : List Char) :: renderTableData d2)

/-- `process_table_proper_format` of `new.py`. -/
def process_table_proper_format (t : Table) : List (List Char) :=
  if t.rows.isEmpty then []
  else if t.rows.any (fun row => row.any (fun c => !c.tables.isEmpty)) then
    process_nested_table_content t
  else process_regular_table t

/-- The table branch of the caller `word_to_markdown_pages` (lines 49–52 of
`new.py`): `if markdown_table: current_lines.extend(markdown_table);
current_lines.append('')`. -/
def append_markdown_table (lines : List (List Char)) (t : Table) : List (List Char) :=
  let md := process_table_proper_format t
  if md.isEmpty then lines else lines ++ md ++ [([] : List Char)]

/-! ## Presentation table model (`test.py`)

`PowerPointToMarkdownConverter._process_table` reads `table.rows` /
`row.cells` / `cell.text` from python-pptx; only the markdown-producing part
is modelled (the JSON dump and metadata bookkeeping are I/O at the
collaborator boundary, and the `rel_data_path` is taken as a parameter). -/

structure PptxTable : Type where
  rows : List (List (List Char))

/-- `'\\' :: '|' :: _` replacement: `text.replace('|', '\\|')`. -/
def escapeBackslashPipes : List Char → List Char
  | [] => []
  | c :: r =>
    if c = '|' then '\\' :: '|' :: escapeBackslashPipes r
    else c :: escapeBackslashPipes r

/-- `cell.text.strip().replace('\n', ' ').replace('|', '\\|')`. -/
def pptxCellText (s : List Char) : List Char :=
  escapeBackslashPipes (replaceChar '\n' ' ' (pyStrip s))

/-- `"|" + "---|" * w`. -/
def pptxSepRow (w : Nat) : List Char :=
  '|' :: (List.replicate w "---|".data).flatten

/-- `f"📋 [View Table Data]({rel_data_path})\n"`. -/
def viewTableLine (relPath : List Char) : List Char :=
  "📋 [View Table Data](".data ++ relPath ++ ")\n".data

/-- The markdown content produced by `_process_table` of `test.py`:
`None` when the table has no rows, otherwise header line, `---|` separator,
one verbatim line per body row (no padding or truncation), one empty line,
then the data-link line. -/
def pptx_process_table (t : PptxTable) (relPath : List Char) :
    Option (List (List Char)) :=
  match t.rows.map (fun row => row.map pptxCellText) with
  | [] => none
  | header :: body =>
    some (pipeRow header :: pptxSepRow header.length ::
      (body.map pipeRow ++ [([] : List Char), viewTableLine relPath]))

/-! ## Derived notions used in claim statements -/

/-- All nested tables of all cells of a table, in source iteration order. -/
def nestedTables (t : Table) : List Table :=
  t.rows.flatMap (fun row => row.flatMap Cell.tables)

/-- Concatenate blocks of lines with a single empty line between
consecutive blocks. -/
def joinBlank : List (List (List Char)) → List (List Char)
  | [] => []
  | d :: rest => d ++ rest.flatMap (fun d2 => ([] : List Char) :: d2)


/-- Every whitespace character in the string is a plain space, and no
whitespace character is immediately followed by another. -/
def headNotSpace : List Char → Bool
  | [] => true
  | c :: _ => !isPySpace c

def wsNormal : List Char → Bool
  | [] => true
  | c :: r => (if isPySpace c then c == ' ' && headNotSpace r else true) && wsNormal r

def lastNotSpace : List Char → Bool
  | [] => true
  | [c] => !isPySpace c
  | _ :: c :: r => lastNotSpace (c :: r)

end PrepData

namespace PrepData

/-! ## Helper lemmas -/

theorem extractRows_eq_filter (rows : List (List Cell)) :
    extractRows rows =
      (rows.map (fun row => row.map cellFinalText)).filter
        (fun rd => rd.any (fun c => !(c == ['–']))) := by
  induction rows with
  | nil => rfl
  | cons row rs ih => simp only [extractRows, ih, List.map_cons, List.filter_cons]

theorem mem_extractRows_ne_nil {rows : List (List Cell)} {rd : List (List Char)}
    (h : rd ∈ extractRows rows) : rd ≠ [] := by
  induction rows with
  | nil => simp [extractRows] at h
  | cons row rs ih =>
    simp only [extractRows] at h
    split at h
    · rcases List.mem_cons.mp h with h1 | h2
      · subst h1
        rename_i hc
        intro hnil
        rw [hnil] at hc
        simp at hc
      · exact ih h2
    · exact ih h

theorem mem_escapePipes {c : Char} {s : List Char} (h : c ∈ escapePipes s) :
    (c ∈ s ∧ c ≠ '|') ∨ c ∈ ['&', '#', '1', '2', '4', ';'] := by
  induction s with
  | nil => simp [escapePipes] at h
  | cons d r ih =>
    rw [escapePipes] at h
    split at h
    · rcases List.mem_cons.mp h with h1 | h
      · right; simp [h1]
      rcases List.mem_cons.mp h with h1 | h
      · right; simp [h1]
      rcases List.mem_cons.mp h with h1 | h
      · right; simp [h1]
      rcases List.mem_cons.mp h with h1 | h
      · right; simp [h1]
      rcases List.mem_cons.mp h with h1 | h
      · right; simp [h1]
      rcases List.mem_cons.mp h with h1 | h
      · right; simp [h1]
      · rcases ih h with ⟨h1, h2⟩ | h1
        · exact Or.inl ⟨List.mem_cons_of_mem d h1, h2⟩
        · exact Or.inr h1
    · rcases List.mem_cons.mp h with h1 | h1
      · rename_i hd
        exact Or.inl ⟨h1 ▸ List.mem_cons_self d r, h1 ▸ hd⟩
      · rcases ih h1 with ⟨h2, h3⟩ | h2
        · exact Or.inl ⟨List.mem_cons_of_mem d h2, h3⟩
        · exact Or.inr h2

theorem mem_replaceChar {a b c : Char} {s : List Char} (h : c ∈ replaceChar a b s) :
    (c ∈ s ∧ c ≠ a) ∨ c = b := by
  induction s with
  | nil => simp [replaceChar] at h
  | cons d r ih =>
    rw [replaceChar] at h
    rcases List.mem_cons.mp h with h1 | h1
    · by_cases hd : d = a
      · rw [if_pos hd] at h1
        exact Or.inr h1
      · rw [if_neg hd] at h1
        exact Or.inl ⟨h1 ▸ List.mem_cons_self d r, h1 ▸ hd⟩
    · rcases ih h1 with ⟨h2, h3⟩ | h2
      · exact Or.inl ⟨List.mem_cons_of_mem d h2, h3⟩
      · exact Or.inr h2

theorem mem_collapseWsAux {c : Char} {st : Bool} {s : List Char}
    (h : c ∈ collapseWsAux st s) : c = ' ' ∨ (c ∈ s ∧ isPySpace c = false) := by
  induction s generalizing st with
  | nil => simp [collapseWsAux] at h
  | cons d r ih =>
    rw [collapseWsAux] at h
    split at h
    · split at h
      · rcases ih h with h1 | ⟨h2, h3⟩
        · exact Or.inl h1
        · exact Or.inr ⟨List.mem_cons_of_mem d h2, h3⟩
      · rcases List.mem_cons.mp h with h1 | h1
        · exact Or.inl h1
        · rcases ih h1 with h2 | ⟨h2, h3⟩
          · exact Or.inl h2
          · exact Or.inr ⟨List.mem_cons_of_mem d h2, h3⟩
    · rcases List.mem_cons.mp h with h1 | h1
      · rename_i hd
        subst h1
        exact Or.inr ⟨List.mem_cons_self c r, Bool.not_eq_true _ ▸ by simpa using hd⟩
      · rcases ih h1 with h2 | ⟨h2, h3⟩
        · exact Or.inl h2
        · exact Or.inr ⟨List.mem_cons_of_mem d h2, h3⟩

theorem mem_dropWhileList {p : Char → Bool} {c : Char} {s : List Char}
    (h : c ∈ s.dropWhile p) : c ∈ s :=
  (List.dropWhile_sublist p (l := s)).subset h

theorem mem_takeWhileList {p : Char → Bool} {c : Char} {s : List Char}
    (h : c ∈ s.takeWhile p) : c ∈ s :=
  (List.takeWhile_sublist p (l := s)).subset h

theorem mem_dropTrailingWs {c : Char} {s : List Char} (h : c ∈ dropTrailingWs s) :
    c ∈ s := by
  induction s with
  | nil => simp [dropTrailingWs] at h
  | cons d r ih =>
    rw [dropTrailingWs] at h
    split at h
    · simp at h
    · rcases List.mem_cons.mp h with h1 | h1
      · exact h1 ▸ List.mem_cons_self d r
      · exact List.mem_cons_of_mem d (ih h1)

theorem mem_pyStrip {c : Char} {s : List Char} (h : c ∈ pyStrip s) : c ∈ s :=
  mem_dropWhileList (mem_dropTrailingWs h)

theorem mem_pctSubF {c : Char} {fuel : Nat} {s : List Char}
    (h : c ∈ pctSubF fuel s) : c ∈ s ∨ c = '%' := by
  induction fuel generalizing s with
  | zero => exact Or.inl h
  | succ fuel ih =>
    cases s with
    | nil => simp [pctSubF] at h
    | cons d r =>
      rw [pctSubF] at h
      split at h
      · split at h
        · rename_i tail heq
          rcases List.mem_append.mp h with h1 | h1
          · exact Or.inl (mem_takeWhileList h1)
          · rcases List.mem_cons.mp h1 with h2 | h2
            · exact Or.inr h2
            · rcases ih h2 with h3 | h3
              · have : c ∈ '%' :: tail := List.mem_cons_of_mem _ h3
                rw [← heq] at this
                exact Or.inl (mem_dropWhileList (mem_dropWhileList this))
              · exact Or.inr h3
        · rcases List.mem_cons.mp h with h1 | h1
          · exact Or.inl (h1 ▸ List.mem_cons_self d r)
          · rcases ih h1 with h2 | h2
            · exact Or.inl (List.mem_cons_of_mem d h2)
            · exact Or.inr h2
      · rcases List.mem_cons.mp h with h1 | h1
        · exact Or.inl (h1 ▸ List.mem_cons_self d r)
        · rcases ih h1 with h2 | h2
          · exact Or.inl (List.mem_cons_of_mem d h2)
          · exact Or.inr h2

theorem mem_pctSub {c : Char} {s : List Char} (h : c ∈ pctSub s) : c ∈ s ∨ c = '%' :=
  mem_pctSubF h

theorem clean_no_pipe (s : List Char) : '|' ∉ clean_cell_text s := by
  intro h
  rw [clean_cell_text] at h
  by_cases he : s.isEmpty
  · rw [if_pos he] at h
    simp at h
  · rw [if_neg he] at h
    simp only [format_percentages] at h
    split at h
    · exact absurd h (by decide)
    · rcases mem_pctSub h with h1 | h1
      · rcases mem_collapseWsAux (mem_pyStrip h1) with h2 | ⟨h2, _⟩
        · exact absurd h2 (by decide)
        · rcases mem_replaceChar h2 with ⟨h3, _⟩ | h3
          · rcases mem_replaceChar h3 with ⟨h4, _⟩ | h4
            · rcases mem_replaceChar h4 with ⟨h5, _⟩ | h5
              · rcases mem_escapePipes h5 with ⟨_, h6⟩ | h6
                · exact h6 rfl
                · exact absurd h6 (by decide)
              · exact absurd h5 (by decide)
            · exact absurd h4 (by decide)
          · exact absurd h3 (by decide)
      · exact absurd h1 (by decide)

theorem cellFinalText_no_pipe (c : Cell) : '|' ∉ cellFinalText c := by
  rw [cellFinalText]
  split
  · decide
  · exact clean_no_pipe _

theorem count_pipe_joinSep {cells : List (List Char)} (hne : cells ≠ [])
    (hp : ∀ cell ∈ cells, '|' ∉ cell) :
    (joinSep [' ', '|', ' '] cells).count '|' = cells.length - 1 := by
  induction cells with
  | nil => exact absurd rfl hne
  | cons c cs ih =>
    cases cs with
    | nil =>
      rw [joinSep]
      simp [List.count_eq_zero.mpr (hp c (List.mem_cons_self c []))]
    | cons d ds =>
      rw [joinSep, List.count_append, List.count_append]
      rw [List.count_eq_zero.mpr (hp c (List.mem_cons_self c (d :: ds)))]
      rw [ih (by simp) (fun cell hc => hp cell (List.mem_cons_of_mem c hc))]
      simp
      omega

theorem count_pipe_pipeRow {cells : List (List Char)} (hne : cells ≠ [])
    (hp : ∀ cell ∈ cells, '|' ∉ cell) :
    (pipeRow cells).count '|' = cells.length + 1 := by
  have hlen : 0 < cells.length := List.length_pos.mpr hne
  rw [pipeRow]
  simp [List.count_cons, List.count_append, count_pipe_joinSep hne hp]
  omega

theorem padTrunc_length (w : Nat) (row : List (List Char)) :
    (padTrunc w row).length = w := by
  simp [padTrunc]
  omega

theorem mem_padTrunc {x : List Char} {w : Nat} {row : List (List Char)}
    (h : x ∈ padTrunc w row) : x ∈ row ∨ x = ['–'] := by
  unfold padTrunc at h
  have h2 := (List.take_sublist w _).subset h
  rcases List.mem_append.mp h2 with h3 | h3
  · exact Or.inl h3
  · exact Or.inr (List.eq_of_mem_replicate h3)

theorem mem_extract_table_data {t : Table} {rd : List (List Char)}
    (h : rd ∈ extract_table_data t) : rd ≠ [] ∧ ∀ cell ∈ rd, '|' ∉ cell := by
  have hx : rd ∈ extractRows t.rows := by
    rw [extract_table_data] at h
    split at h
    · simp at h
    · exact h
  refine ⟨mem_extractRows_ne_nil hx, ?_⟩
  rw [extractRows_eq_filter] at hx
  have hm := List.mem_of_mem_filter hx
  rcases List.mem_map.mp hm with ⟨row, _, rfl⟩
  intro cell hc
  rcases List.mem_map.mp hc with ⟨c0, _, rfl⟩
  exact cellFinalText_no_pipe c0


theorem pctSubF_nil : ∀ f : Nat, pctSubF f [] = [] := by
  intro f
  cases f <;> rfl

theorem length_lt_of_pct_match {c : Char} {rest tail : List Char}
    (hc : isPyDigit c = true)
    (heq : ((c :: rest).dropWhile isPyDigit).dropWhile isPySpace = '%' :: tail) :
    tail.length < rest.length := by
  have h1 : (c :: rest).dropWhile isPyDigit = rest.dropWhile isPyDigit := by
    rw [List.dropWhile_cons, if_pos hc]
  rw [h1] at heq
  have h2 : ('%' :: tail).length ≤ (rest.dropWhile isPyDigit).length := by
    rw [← heq]; exact (List.dropWhile_sublist _).length_le
  have h3 : (rest.dropWhile isPyDigit).length ≤ rest.length :=
    (List.dropWhile_sublist _).length_le
  simp at h2
  omega

theorem pctSubF_mono (s : List Char) (f g : Nat) (hf : s.length ≤ f) (hg : s.length ≤ g) :
    pctSubF f s = pctSubF g s := by
  generalize hn : s.length = n
  induction n using Nat.strong_induction_on generalizing s f g with
  | _ n ih =>
  subst hn
  cases s with
  | nil => rw [pctSubF_nil, pctSubF_nil]
  | cons c rest =>
    cases f with
    | zero => simp at hf
    | succ f =>
      cases g with
      | zero => simp at hg
      | succ g =>
        simp only [List.length_cons] at hf hg
        rw [pctSubF, pctSubF]
        by_cases hc : isPyDigit c = true
        · rw [if_pos hc, if_pos hc]
          split
          · rename_i tail heq
            have hlt := length_lt_of_pct_match hc heq
            have := ih tail.length (by simp; omega) tail f g (by omega) (by omega) rfl
            rw [this]
          · have := ih rest.length (by simp) rest f g (by omega) (by omega) rfl
            rw [this]
        · rw [if_neg hc, if_neg hc]
          have := ih rest.length (by simp) rest f g (by omega) (by omega) rfl
          rw [this]

theorem pctSubF_adequate {f : Nat} {s : List Char} (hf : s.length ≤ f) :
    pctSubF f s = pctSub s :=
  pctSubF_mono s f s.length hf le_rfl

theorem pctSub_cons_nondigit {c : Char} {rest : List Char} (h : isPyDigit c = false) :
    pctSub (c :: rest) = c :: pctSub rest := by
  show pctSubF (c :: rest).length (c :: rest) = _
  rw [List.length_cons, pctSubF, if_neg (by simp [h])]
  rfl

theorem pctSub_cons_digit_fail {c : Char} {rest : List Char} (hc : isPyDigit c = true)
    (hns : ∀ tail, ((c :: rest).dropWhile isPyDigit).dropWhile isPySpace ≠ '%' :: tail) :
    pctSub (c :: rest) = c :: pctSub rest := by
  show pctSubF (c :: rest).length (c :: rest) = _
  rw [List.length_cons, pctSubF, if_pos hc]
  split
  · rename_i tail heq
    exact absurd heq (hns tail)
  · rfl

theorem pctSub_cons_digit_match {c : Char} {rest tail : List Char} (hc : isPyDigit c = true)
    (heq : ((c :: rest).dropWhile isPyDigit).dropWhile isPySpace = '%' :: tail) :
    pctSub (c :: rest) = (c :: rest).takeWhile isPyDigit ++ '%' :: pctSub tail := by
  show pctSubF (c :: rest).length (c :: rest) = _
  rw [List.length_cons, pctSubF, if_pos hc]
  split
  · rename_i tail2 heq2
    rw [heq] at heq2
    injection heq2 with _ h3
    subst h3
    rw [pctSubF_adequate (le_of_lt (length_lt_of_pct_match hc heq))]
  · rename_i hno
    exact absurd heq (hno tail)

theorem percent_cons_cases (x : List Char) :
    (∃ tail, x = '%' :: tail) ∨ (∀ tail, x ≠ '%' :: tail) := by
  cases x with
  | nil => right; intro tail h; simp at h
  | cons d tl =>
    by_cases hd : d = '%'
    · subst hd; exact Or.inl ⟨tl, rfl⟩
    · right
      intro tail h
      injection h with h1 _
      exact hd h1

theorem dropWhile_append_all {p : Char → Bool} {l z : List Char}
    (h : ∀ x ∈ l, p x = true) : (l ++ z).dropWhile p = z.dropWhile p := by
  induction l with
  | nil => rfl
  | cons a r ih =>
    rw [List.cons_append, List.dropWhile_cons, if_pos (h a (List.mem_cons_self a r))]
    exact ih (fun x hx => h x (List.mem_cons_of_mem a hx))

theorem takeWhile_append_all {p : Char → Bool} {l z : List Char}
    (h : ∀ x ∈ l, p x = true) : (l ++ z).takeWhile p = l ++ z.takeWhile p := by
  induction l with
  | nil => rfl
  | cons a r ih =>
    rw [List.cons_append, List.takeWhile_cons, if_pos (h a (List.mem_cons_self a r))]
    rw [ih (fun x hx => h x (List.mem_cons_of_mem a hx))]
    rfl

theorem dropWhile_head_neg {p : Char → Bool} {z : List Char} {b : Char} {tl : List Char}
    (h : z.dropWhile p = b :: tl) : p b = false := by
  induction z with
  | nil => simp at h
  | cons a r ih =>
    rw [List.dropWhile_cons] at h
    split at h
    · exact ih h
    · rename_i hp
      injection h with h1 _
      subst h1
      simpa using hp

theorem dropWhile_fix_of_head {p : Char → Bool} {z : List Char}
    (h : ∀ b tl, z = b :: tl → p b = false) : z.dropWhile p = z := by
  cases z with
  | nil => rfl
  | cons b tl =>
    rw [List.dropWhile_cons, if_neg]
    simp [h b tl rfl]

theorem space_not_digit {x : Char} (h : isPySpace x = true) : isPyDigit x = false := by
  by_contra hd
  rw [Bool.not_eq_false] at hd
  simp only [isPyDigit, Bool.and_eq_true, decide_eq_true_eq] at hd
  obtain ⟨hd1, hd2⟩ := hd
  simp only [isPySpace, Bool.or_eq_true, Bool.and_eq_true, decide_eq_true_eq] at h
  rcases h with ((((((((((((((((((h|h)|h)|h)|h)|h)|h)|h)|h)|h)|h)|h)|h)|⟨h1,h2⟩)|h)|h)|h)|h)|h)
  all_goals first
    | (subst h; exact absurd (And.intro hd1 hd2) (by decide))
    | (exact absurd (le_trans h1 hd2) (by decide))

theorem pctSub_head (c : Char) (rest : List Char) : (pctSub (c :: rest)).head? = some c := by
  by_cases hc : isPyDigit c = true
  · rcases percent_cons_cases (((c :: rest).dropWhile isPyDigit).dropWhile isPySpace) with
      ⟨tail, heq⟩ | hns
    · rw [pctSub_cons_digit_match hc heq, List.takeWhile_cons, if_pos hc]
      rfl
    · rw [pctSub_cons_digit_fail hc hns]
      rfl
  · rw [pctSub_cons_nondigit (by simpa using hc)]
    rfl

theorem pctSub_nondigit_append {l z : List Char} (h : ∀ x ∈ l, isPyDigit x = false) :
    pctSub (l ++ z) = l ++ pctSub z := by
  induction l with
  | nil => rfl
  | cons a r ih =>
    rw [List.cons_append, pctSub_cons_nondigit (h a (List.mem_cons_self a r)),
      ih (fun x hx => h x (List.mem_cons_of_mem a hx))]
    rfl

theorem pctSub_digit_fail_append {ds r2 : List Char}
    (hds : ∀ x ∈ ds, isPyDigit x = true)
    (hr2 : ∀ b tl, r2 = b :: tl → isPyDigit b = false)
    (hfail : ∀ tail, r2.dropWhile isPySpace ≠ '%' :: tail) :
    pctSub (ds ++ r2) = ds ++ pctSub r2 := by
  induction ds with
  | nil => rfl
  | cons d ds ih =>
    have hd : isPyDigit d = true := hds d (List.mem_cons_self d ds)
    have hns : ∀ tail,
        ((d :: (ds ++ r2)).dropWhile isPyDigit).dropWhile isPySpace ≠ '%' :: tail := by
      have h1 : (d :: (ds ++ r2)).dropWhile isPyDigit = r2 := by
        rw [List.dropWhile_cons, if_pos hd,
          dropWhile_append_all (fun x hx => hds x (List.mem_cons_of_mem d hx))]
        exact dropWhile_fix_of_head hr2
      rw [h1]
      exact hfail
    rw [List.cons_append, pctSub_cons_digit_fail hd hns,
      ih (fun x hx => hds x (List.mem_cons_of_mem d hx))]
    rfl

theorem pctSub_idem (s : List Char) : pctSub (pctSub s) = pctSub s := by
  generalize hn : s.length = n
  induction n using Nat.strong_induction_on generalizing s with
  | _ n ih =>
  subst hn
  cases s with
  | nil => rfl
  | cons c rest =>
    by_cases hc : isPyDigit c = true
    · rcases percent_cons_cases (((c :: rest).dropWhile isPyDigit).dropWhile isPySpace) with
        ⟨tail, heq⟩ | hns
      · have hlt := length_lt_of_pct_match hc heq
        rw [pctSub_cons_digit_match hc heq]
        have htw : (c :: rest).takeWhile isPyDigit = c :: rest.takeWhile isPyDigit := by
          rw [List.takeWhile_cons, if_pos hc]
        have halltw : ∀ x ∈ rest.takeWhile isPyDigit, isPyDigit x = true :=
          fun x hx => List.mem_takeWhile_imp hx
        rw [htw, List.cons_append]
        have hdw2 : ((c :: (rest.takeWhile isPyDigit ++ '%' :: pctSub tail)).dropWhile
            isPyDigit).dropWhile isPySpace = '%' :: pctSub tail := by
          rw [List.dropWhile_cons, if_pos hc, dropWhile_append_all halltw,
            List.dropWhile_cons, if_neg (by decide), List.dropWhile_cons, if_neg (by decide)]
        rw [pctSub_cons_digit_match hc hdw2]
        have htw2 : (c :: (rest.takeWhile isPyDigit ++ '%' :: pctSub tail)).takeWhile
            isPyDigit = c :: rest.takeWhile isPyDigit := by
          rw [List.takeWhile_cons, if_pos hc, takeWhile_append_all halltw,
            List.takeWhile_cons, if_neg (by decide)]
          simp
        rw [htw2, ih tail.length (by simp; omega) tail rfl]
        simp
      · rw [pctSub_cons_digit_fail hc hns]
        have hds : ∀ x ∈ rest.takeWhile isPyDigit, isPyDigit x = true :=
          fun x hx => List.mem_takeWhile_imp hx
        have hr2head : ∀ b tl, rest.dropWhile isPyDigit = b :: tl → isPyDigit b = false :=
          fun b tl h => dropWhile_head_neg h
        have hfail : ∀ tail, (rest.dropWhile isPyDigit).dropWhile isPySpace ≠ '%' :: tail := by
          intro tail habs
          exact hns tail (by rw [List.dropWhile_cons, if_pos hc]; exact habs)
        have hrest : pctSub rest =
            rest.takeWhile isPyDigit ++ pctSub (rest.dropWhile isPyDigit) := by
          conv_lhs => rw [← List.takeWhile_append_dropWhile (p := isPyDigit) (l := rest)]
          exact pctSub_digit_fail_append hds hr2head hfail
        have hns2 : ∀ tail,
            ((c :: pctSub rest).dropWhile isPyDigit).dropWhile isPySpace ≠ '%' :: tail := by
          intro tail
          rw [List.dropWhile_cons, if_pos hc, hrest, dropWhile_append_all hds]
          have hfix : (pctSub (rest.dropWhile isPyDigit)).dropWhile isPyDigit =
              pctSub (rest.dropWhile isPyDigit) := by
            apply dropWhile_fix_of_head
            intro b tl hb
            cases hr2c : rest.dropWhile isPyDigit with
            | nil => rw [hr2c] at hb; simp [pctSub, pctSubF] at hb
            | cons b0 tl0 =>
              rw [hr2c] at hb
              have hh := pctSub_head b0 tl0
              rw [hb] at hh
              simp at hh
              rw [hh]
              exact hr2head b0 tl0 hr2c
          rw [hfix]
          have hws : ∀ x ∈ (rest.dropWhile isPyDigit).takeWhile isPySpace, isPySpace x = true :=
            fun x hx => List.mem_takeWhile_imp hx
          have hws_nd : ∀ x ∈ (rest.dropWhile isPyDigit).takeWhile isPySpace,
              isPyDigit x = false := fun x hx => space_not_digit (hws x hx)
          have hr2split : pctSub (rest.dropWhile isPyDigit) =
              (rest.dropWhile isPyDigit).takeWhile isPySpace ++
                pctSub ((rest.dropWhile isPyDigit).dropWhile isPySpace) := by
            conv_lhs => rw [← List.takeWhile_append_dropWhile (p := isPySpace)
              (l := rest.dropWhile isPyDigit)]
            exact pctSub_nondigit_append hws_nd
          rw [hr2split, dropWhile_append_all hws]
          cases hr3 : (rest.dropWhile isPyDigit).dropWhile isPySpace with
          | nil => simp [pctSub, pctSubF]
          | cons b r3x =>
            have hbs : isPySpace b = false := dropWhile_head_neg hr3
            have hb_ne : b ≠ '%' := by
              intro hbeq
              exact hfail r3x (by rw [hr3, hbeq])
            have hh := pctSub_head b r3x
            cases hps : pctSub (b :: r3x) with
            | nil => rw [hps] at hh; simp at hh
            | cons e es =>
              rw [hps] at hh
              simp at hh
              rw [List.dropWhile_cons, if_neg (by rw [hh]; simp [hbs])]
              intro habs
              injection habs with hb1 _
              exact hb_ne (hh ▸ hb1)
        rw [pctSub_cons_digit_fail hc hns2, ih rest.length (by simp) rest rfl]
    · have hcf : isPyDigit c = false := by simpa using hc
      rw [pctSub_cons_nondigit hcf, pctSub_cons_nondigit hcf,
        ih rest.length (by simp) rest rfl]

theorem digit_not_space {x : Char} (h : isPyDigit x = true) : isPySpace x = false := by
  by_contra hs
  rw [Bool.not_eq_false] at hs
  rw [space_not_digit hs] at h
  exact Bool.false_ne_true h

theorem escapePipes_fix {r : List Char} (h : '|' ∉ r) : escapePipes r = r := by
  induction r with
  | nil => rfl
  | cons c rest ih =>
    have hcp : ¬(c = '|') := by
      intro hc
      subst hc
      exact h (List.mem_cons_self _ _)
    rw [escapePipes, if_neg hcp, ih (fun hm => h (List.mem_cons_of_mem c hm))]

theorem replaceChar_fix {a b : Char} {r : List Char} (h : a ∉ r) : replaceChar a b r = r := by
  induction r with
  | nil => rfl
  | cons c rest ih =>
    have hcp : ¬(c = a) := by
      intro hc
      subst hc
      exact h (List.mem_cons_self _ _)
    rw [replaceChar, if_neg hcp, ih (fun hm => h (List.mem_cons_of_mem c hm))]

theorem wsNormal_tail {c : Char} {r : List Char} (h : wsNormal (c :: r) = true) :
    wsNormal r = true := by
  rw [wsNormal, Bool.and_eq_true] at h
  exact h.2

theorem collapseWsAux_fix : ∀ r : List Char, wsNormal r = true →
    collapseWsAux false r = r ∧ (headNotSpace r = true → collapseWsAux true r = r) := by
  intro r
  induction r with
  | nil => intro _; exact ⟨rfl, fun _ => rfl⟩
  | cons c rest ih =>
    intro hw
    have hwr : wsNormal rest = true := wsNormal_tail hw
    have ihh := ih hwr
    by_cases hc : isPySpace c = true
    · rw [wsNormal, if_pos hc, Bool.and_eq_true, Bool.and_eq_true, beq_iff_eq] at hw
      obtain ⟨⟨hceq, hhr⟩, _⟩ := hw
      constructor
      · rw [collapseWsAux, if_pos hc]
        simp only [Bool.false_eq_true, if_false]
        rw [ihh.2 hhr, hceq]
      · intro habs
        rw [headNotSpace, hc] at habs
        simp at habs
    · constructor
      · rw [collapseWsAux, if_neg hc, ihh.1]
      · intro _
        rw [collapseWsAux, if_neg hc, ihh.1]

theorem collapseWs_fix {r : List Char} (h : wsNormal r = true) : collapseWs r = r :=
  (collapseWsAux_fix r h).1

theorem dropTrailingWs_fix {r : List Char} (h : lastNotSpace r = true) :
    dropTrailingWs r = r := by
  induction r with
  | nil => rfl
  | cons c rest ih =>
    cases rest with
    | nil =>
      simp only [lastNotSpace, Bool.not_eq_true'] at h
      simp [dropTrailingWs, h]
    | cons d rest2 =>
      rw [lastNotSpace] at h
      have := ih h
      rw [dropTrailingWs, this]
      simp

theorem lastNotSpace_dropTrailingWs : ∀ r : List Char,
    lastNotSpace (dropTrailingWs r) = true := by
  intro r
  induction r with
  | nil => rfl
  | cons c rest ih =>
    rw [dropTrailingWs]
    split
    · rfl
    · rename_i hcond
      cases hdt : dropTrailingWs rest with
      | nil =>
        rw [hdt] at hcond
        simp at hcond
        rw [lastNotSpace, hcond]
        rfl
      | cons d tl =>
        rw [hdt] at ih
        rw [lastNotSpace]
        exact ih

theorem headNotSpace_dropTrailingWs {r : List Char} (h : headNotSpace r = true) :
    headNotSpace (dropTrailingWs r) = true := by
  cases r with
  | nil => rfl
  | cons c rest =>
    rw [dropTrailingWs]
    split
    · rfl
    · rw [headNotSpace] at h ⊢
      exact h

theorem headNotSpace_dropWhileSpace (r : List Char) :
    headNotSpace (r.dropWhile isPySpace) = true := by
  cases hdw : r.dropWhile isPySpace with
  | nil => rfl
  | cons b tl =>
    rw [headNotSpace, dropWhile_head_neg hdw]
    rfl

theorem headNotSpace_pctSub {r : List Char} (h : headNotSpace r = true) :
    headNotSpace (pctSub r) = true := by
  cases r with
  | nil => rfl
  | cons c rest =>
    have hh := pctSub_head c rest
    cases hps : pctSub (c :: rest) with
    | nil => rfl
    | cons e es =>
      rw [hps] at hh
      simp at hh
      rw [headNotSpace, hh]
      rw [headNotSpace] at h
      exact h

theorem lastNotSpace_cons2 {c : Char} {l : List Char} (h : l ≠ []) :
    lastNotSpace (c :: l) = lastNotSpace l := by
  cases l with
  | nil => exact absurd rfl h
  | cons d tl => rw [lastNotSpace]

theorem lastNotSpace_append {l1 l2 : List Char} (h : l2 ≠ []) :
    lastNotSpace (l1 ++ l2) = lastNotSpace l2 := by
  induction l1 with
  | nil => rfl
  | cons a l1x ih =>
    rw [List.cons_append, lastNotSpace_cons2 (by simp [h]), ih]

theorem pctSub_ne_nil (c : Char) (rest : List Char) : pctSub (c :: rest) ≠ [] := by
  intro habs
  have := pctSub_head c rest
  rw [habs] at this
  simp at this

theorem lastNotSpace_pctSub (s : List Char) (h : lastNotSpace s = true) :
    lastNotSpace (pctSub s) = true := by
  generalize hn : s.length = n
  induction n using Nat.strong_induction_on generalizing s with
  | _ n ih =>
  subst hn
  cases s with
  | nil => exact h
  | cons c rest =>
    by_cases hc : isPyDigit c = true
    · rcases percent_cons_cases (((c :: rest).dropWhile isPyDigit).dropWhile isPySpace) with
        ⟨tail, heq⟩ | hns
      · have hlt := length_lt_of_pct_match hc heq
        rw [pctSub_cons_digit_match hc heq]
        rw [lastNotSpace_append (show ('%' :: pctSub tail : List Char) ≠ [] by simp)]
        have hdecomp : c :: rest =
            (c :: rest).takeWhile isPyDigit ++
              (((c :: rest).dropWhile isPyDigit).takeWhile isPySpace ++ ('%' :: tail)) := by
          conv_lhs => rw [← List.takeWhile_append_dropWhile (p := isPyDigit) (l := c :: rest)]
          congr 1
          conv_lhs => rw [← List.takeWhile_append_dropWhile (p := isPySpace)
            (l := (c :: rest).dropWhile isPyDigit)]
          rw [heq]
        cases tail with
        | nil => decide
        | cons x xs =>
          rw [lastNotSpace_cons2 (pctSub_ne_nil x xs)]
          rw [hdecomp] at h
          rw [lastNotSpace_append (by simp), lastNotSpace_append (by simp),
            lastNotSpace_cons2 (by simp)] at h
          exact ih (x :: xs).length (by simp at hlt ⊢; omega) (x :: xs) h rfl
      · rw [pctSub_cons_digit_fail hc hns]
        cases rest with
        | nil => exact h
        | cons d r2 =>
          rw [lastNotSpace_cons2 (pctSub_ne_nil d r2)]
          rw [lastNotSpace] at h
          exact ih (d :: r2).length (by simp) (d :: r2) h rfl
    · rw [pctSub_cons_nondigit (by simpa using hc)]
      cases rest with
      | nil => exact h
      | cons d r2 =>
        rw [lastNotSpace_cons2 (pctSub_ne_nil d r2)]
        rw [lastNotSpace] at h
        exact ih (d :: r2).length (by simp) (d :: r2) h rfl

theorem wsNormal_append_right {l1 l2 : List Char} (h : wsNormal (l1 ++ l2) = true) :
    wsNormal l2 = true := by
  induction l1 with
  | nil => exact h
  | cons a l1x ih => exact ih (wsNormal_tail h)

theorem wsNormal_dropWhileP {p : Char → Bool} {r : List Char} (h : wsNormal r = true) :
    wsNormal (r.dropWhile p) = true := by
  induction r with
  | nil => exact h
  | cons c rest ih =>
    rw [List.dropWhile_cons]
    split
    · exact ih (wsNormal_tail h)
    · exact h

theorem wsNormal_dropTrailingWs {r : List Char} (h : wsNormal r = true) :
    wsNormal (dropTrailingWs r) = true := by
  induction r with
  | nil => exact h
  | cons c rest ih =>
    rw [dropTrailingWs]
    split
    · rfl
    · rw [wsNormal, Bool.and_eq_true]
      refine ⟨?_, ih (wsNormal_tail h)⟩
      by_cases hc : isPySpace c = true
      · rw [if_pos hc]
        rw [wsNormal, if_pos hc, Bool.and_eq_true, Bool.and_eq_true] at h
        obtain ⟨⟨h1, h2⟩, _⟩ := h
        rw [Bool.and_eq_true]
        exact ⟨h1, headNotSpace_dropTrailingWs h2⟩
      · rw [if_neg hc]

theorem wsNormal_nonspace_append {l z : List Char} (hl : ∀ x ∈ l, isPySpace x = false)
    (hz : wsNormal z = true) : wsNormal (l ++ z) = true := by
  induction l with
  | nil => exact hz
  | cons a r ih =>
    rw [List.cons_append, wsNormal, Bool.and_eq_true]
    constructor
    · rw [if_neg (by simp [hl a (List.mem_cons_self a r)])]
    · exact ih (fun x hx => hl x (List.mem_cons_of_mem a hx))

theorem wsNormal_collapseWsAux : ∀ r : List Char,
    wsNormal (collapseWsAux false r) = true ∧
      (wsNormal (collapseWsAux true r) = true ∧
        headNotSpace (collapseWsAux true r) = true) := by
  intro r
  induction r with
  | nil => exact ⟨rfl, rfl, rfl⟩
  | cons c rest ih =>
    obtain ⟨ihf, iht, ihh⟩ := ih
    by_cases hc : isPySpace c = true
    · refine ⟨?_, ?_, ?_⟩
      · rw [collapseWsAux, if_pos hc]
        simp only [Bool.false_eq_true, if_false]
        rw [wsNormal, Bool.and_eq_true]
        refine ⟨?_, iht⟩
        rw [if_pos (by decide : isPySpace ' ' = true), Bool.and_eq_true]
        exact ⟨by decide, ihh⟩
      · rw [collapseWsAux, if_pos hc]
        simpa using iht
      · rw [collapseWsAux, if_pos hc]
        simpa using ihh
    · refine ⟨?_, ?_, ?_⟩
      · rw [collapseWsAux, if_neg hc, wsNormal, Bool.and_eq_true]
        exact ⟨by rw [if_neg hc], ihf⟩
      · rw [collapseWsAux, if_neg hc, wsNormal, Bool.and_eq_true]
        exact ⟨by rw [if_neg hc], ihf⟩
      · rw [collapseWsAux, if_neg hc, headNotSpace]
        simpa using hc

theorem wsNormal_collapseWs (r : List Char) : wsNormal (collapseWs r) = true :=
  (wsNormal_collapseWsAux r).1

theorem wsNormal_pctSub (s : List Char) (h : wsNormal s = true) :
    wsNormal (pctSub s) = true := by
  generalize hn : s.length = n
  induction n using Nat.strong_induction_on generalizing s with
  | _ n ih =>
  subst hn
  cases s with
  | nil => exact h
  | cons c rest =>
    by_cases hc : isPyDigit c = true
    · rcases percent_cons_cases (((c :: rest).dropWhile isPyDigit).dropWhile isPySpace) with
        ⟨tail, heq⟩ | hns
      · have hlt := length_lt_of_pct_match hc heq
        rw [pctSub_cons_digit_match hc heq]
        apply wsNormal_nonspace_append
        · intro x hx
          exact digit_not_space (List.mem_takeWhile_imp hx)
        · rw [wsNormal, Bool.and_eq_true]
          refine ⟨by rw [if_neg (by decide)], ?_⟩
          have hdecomp : c :: rest =
              (c :: rest).takeWhile isPyDigit ++
                (((c :: rest).dropWhile isPyDigit).takeWhile isPySpace ++ ('%' :: tail)) := by
            conv_lhs => rw [← List.takeWhile_append_dropWhile (p := isPyDigit) (l := c :: rest)]
            congr 1
            conv_lhs => rw [← List.takeWhile_append_dropWhile (p := isPySpace)
              (l := (c :: rest).dropWhile isPyDigit)]
            rw [heq]
          rw [hdecomp] at h
          have h2 := wsNormal_tail (wsNormal_append_right (wsNormal_append_right h))
          exact ih tail.length (by simp at hlt ⊢; omega) tail h2 rfl
      · rw [pctSub_cons_digit_fail hc hns]
        rw [wsNormal, Bool.and_eq_true]
        constructor
        · rw [if_neg (by simp [digit_not_space hc])]
        · exact ih rest.length (by simp) rest (wsNormal_tail h) rfl
    · have hcf : isPyDigit c = false := by simpa using hc
      rw [pctSub_cons_nondigit hcf, wsNormal, Bool.and_eq_true]
      constructor
      · by_cases hs2 : isPySpace c = true
        · rw [if_pos hs2]
          rw [wsNormal, if_pos hs2, Bool.and_eq_true, Bool.and_eq_true] at h
          obtain ⟨⟨h1, h2⟩, _⟩ := h
          rw [Bool.and_eq_true]
          exact ⟨h1, headNotSpace_pctSub h2⟩
        · rw [if_neg hs2]
      · exact ih rest.length (by simp) rest (wsNormal_tail h) rfl

theorem pyStrip_fix {r : List Char} (h1 : headNotSpace r = true)
    (h2 : lastNotSpace r = true) : pyStrip r = r := by
  rw [pyStrip, dropWhile_fix_of_head, dropTrailingWs_fix h2]
  intro b tl hb
  rw [hb, headNotSpace] at h1
  simpa using h1

theorem space_char_not_mem_clean {a : Char} (ha : isPySpace a = true) (hne : a ≠ ' ')
    (s : List Char) : a ∉ clean_cell_text s := by
  intro hmem
  rw [clean_cell_text] at hmem
  by_cases he : s.isEmpty
  · rw [if_pos he] at hmem
    simp at hmem
  · rw [if_neg he] at hmem
    simp only [format_percentages] at hmem
    split at hmem
    · have hT : ∀ c ∈ "Total".data, isPySpace c = false := by decide
      rw [hT a hmem] at ha
      exact Bool.false_ne_true ha
    · rcases mem_pctSub hmem with h1 | h1
      · rcases mem_collapseWsAux (mem_pyStrip h1) with h2 | ⟨_, h3⟩
        · exact hne h2
        · rw [h3] at ha
          exact Bool.false_ne_true ha
      · rw [h1] at ha
        exact absurd ha (by decide)

theorem getLast?_mem_list {α : Type} {l : List α} {x : α} (h : l.getLast? = some x) :
    x ∈ l := by
  rcases List.mem_getLast?_eq_getLast h with ⟨hne, rfl⟩
  exact List.getLast_mem hne

theorem pipeRow_ne_nil (cells : List (List Char)) : pipeRow cells ≠ [] := by
  simp [pipeRow]

theorem renderTableData_lines_ne_nil {d : List (List (List Char))} {l : List Char}
    (h : l ∈ renderTableData d) : l ≠ [] := by
  cases d with
  | nil => simp [renderTableData] at h
  | cons header body =>
    simp only [renderTableData, List.mem_cons, List.mem_map] at h
    rcases h with h | h | ⟨r, _, h⟩
    · subst h; exact pipeRow_ne_nil header
    · subst h; exact pipeRow_ne_nil _
    · rw [← h]; exact pipeRow_ne_nil _

theorem renderTableData_ne_nil {d : List (List (List Char))} (h : d ≠ []) :
    renderTableData d ≠ [] := by
  cases d with
  | nil => exact absurd rfl h
  | cons header body => simp [renderTableData]

theorem mem_nestedTableDatas_ne_nil {t : Table} {d : List (List (List Char))}
    (h : d ∈ nestedTableDatas t) : d ≠ [] := by
  unfold nestedTableDatas at h
  rcases List.mem_flatMap.mp h with ⟨row, _, h2⟩
  rcases List.mem_flatMap.mp h2 with ⟨c, _, h3⟩
  have h4 := (List.mem_filter.mp h3).2
  intro hd
  rw [hd] at h4
  simp at h4

theorem getLast_blocks_ne_nil {ds : List (List (List (List Char)))}
    (hne : ∀ d ∈ ds, d ≠ []) {x : List Char}
    (h : (ds.flatMap (fun d2 => ([] : List Char) :: renderTableData d2)).getLast? =
      some x) : x ≠ [] := by
  induction ds with
  | nil => simp at h
  | cons d rest ih =>
    rw [List.flatMap_cons] at h
    cases rest with
    | nil =>
      simp only [List.flatMap_nil, List.append_nil] at h
      have hrd : renderTableData d ≠ [] :=
        renderTableData_ne_nil (hne d (List.mem_cons_self d []))
      rw [show (([] : List Char) :: renderTableData d) =
          [([] : List Char)] ++ renderTableData d from rfl,
        List.getLast?_append_of_ne_nil _ hrd] at h
      exact renderTableData_lines_ne_nil (getLast?_mem_list h)
    | cons r1 rest2 =>
      have hfm : ((r1 :: rest2).flatMap
          (fun d2 => ([] : List Char) :: renderTableData d2)) ≠ [] := by
        rw [List.flatMap_cons]
        simp
      rw [List.getLast?_append_of_ne_nil _ hfm] at h
      exact ih (fun d2 hd2 => hne d2 (List.mem_cons_of_mem d hd2)) h

theorem pnc_getLast_ne_nil {t : Table} {x : List Char}
    (h : (process_nested_table_content t).getLast? = some x) : x ≠ [] := by
  revert h
  unfold process_nested_table_content
  cases hnd : nestedTableDatas t with
  | nil => intro h; simp at h
  | cons d rest =>
    intro h
    replace h : (renderTableData d ++
        rest.flatMap (fun d2 => ([] : List Char) :: renderTableData d2)).getLast? =
      some x := h
    cases rest with
    | nil =>
      simp only [List.flatMap_nil, List.append_nil] at h
      exact renderTableData_lines_ne_nil (getLast?_mem_list h)
    | cons r1 rest2 =>
      have hfm : ((r1 :: rest2).flatMap
          (fun d2 => ([] : List Char) :: renderTableData d2)) ≠ [] := by
        rw [List.flatMap_cons]
        simp
      rw [List.getLast?_append_of_ne_nil _ hfm] at h
      refine getLast_blocks_ne_nil ?_ h
      intro d2 hd2
      exact mem_nestedTableDatas_ne_nil (t := t)
        (by rw [hnd]; exact List.mem_cons_of_mem d hd2)

/-! ## Claim theorems -/

/-- C9: flattening a table with zero rows yields the designated empty result
in both reimplementations (an empty line sequence in `new.py`, `None` in
`test.py`), not an error. -/
theorem zero_rows_empty_result :
    (∀ t : Table, t.rows = [] → process_table_proper_format t = []) ∧
    (∀ (pt : PptxTable) (p : List Char), pt.rows = [] →
      pptx_process_table pt p = none) := by
  constructor
  · intro t h
    simp [process_table_proper_format, h]
  · intro pt p h
    simp [pptx_process_table, h]

/-- C9 witness: the two zero-row tables. -/
theorem zero_rows_empty_result_witness :
    process_table_proper_format (Table.mk []) = [] ∧
    pptx_process_table (PptxTable.mk []) [] = none :=
  ⟨zero_rows_empty_result.1 (Table.mk []) rfl,
   zero_rows_empty_result.2 (PptxTable.mk []) [] rfl⟩

/-- C6: a surviving body row shorter than the header width `w` is right-padded
with en-dash placeholder cells up to `w`, and one longer is truncated to its
first `w` cells; concretely, header `["A","B","C"]` with row `["x","y"]`
renders `"| x | y | – |"` and header `["A","B"]` with row `["x","y","z"]`
renders `"| x | y |"`. -/
theorem ragged_row_repair :
    (∀ (w : Nat) (row : List (List Char)), row.length ≤ w →
        padTrunc w row = row ++ List.replicate (w - row.length) (['–'] : List Char)) ∧
    (∀ (w : Nat) (row : List (List Char)), w ≤ row.length →
        padTrunc w row = row.take w) ∧
    process_regular_table (Table.mk
      [[Cell.mk ["A".data] [], Cell.mk ["B".data] [], Cell.mk ["C".data] []],
       [Cell.mk ["x".data] [], Cell.mk ["y".data] []]]) =
      ["| A | B | C |".data, "| --- | --- | --- |".data, "| x | y | – |".data] ∧
    process_regular_table (Table.mk
      [[Cell.mk ["A".data] [], Cell.mk ["B".data] []],
       [Cell.mk ["x".data] [], Cell.mk ["y".data] [], Cell.mk ["z".data] []]]) =
      ["| A | B |".data, "| --- | --- |".data, "| x | y |".data] := by
  refine ⟨?_, ?_, by decide, by decide⟩
  · intro w row h
    unfold padTrunc
    rw [List.take_of_length_le]
    simp [Nat.add_sub_cancel' h]
  · intro w row h
    simp [padTrunc, Nat.sub_eq_zero_of_le h]

/-- C6 witness: the padding and truncation clauses at the spec's examples. -/
theorem ragged_row_repair_witness :
    padTrunc 3 ["x".data, "y".data] =
      ["x".data, "y".data] ++ List.replicate (3 - 2) (['–'] : List Char) ∧
    padTrunc 2 ["x".data, "y".data, "z".data] =
      ["x".data, "y".data, "z".data].take 2 :=
  ⟨ragged_row_repair.1 3 ["x".data, "y".data] (by decide),
   ragged_row_repair.2.1 2 ["x".data, "y".data, "z".data] (by decide)⟩

/-- C8: `extract_table_data` keeps a row iff at least one of its cells is
non-placeholder after normalization (so an all-placeholder row is excluded
before the header is assigned), and a cell whose paragraphs are all
empty/whitespace-only normalizes to the placeholder. -/
theorem placeholder_rows_dropped :
    (∀ t : Table, extract_table_data t =
        (t.rows.map (fun row => row.map cellFinalText)).filter
          (fun rd => rd.any (fun c => !(c == ['–'])))) ∧
    (∀ c : Cell, (∀ p ∈ c.paragraphs, pyStrip p = []) → cellFinalText c = ['–']) := by
  constructor
  · intro t
    by_cases h : t.rows.isEmpty
    · rw [List.isEmpty_iff] at h
      simp [extract_table_data, h]
    · simp only [extract_table_data, h, if_false, Bool.false_eq_true]
      exact extractRows_eq_filter t.rows
  · intro c h
    have hf : (c.paragraphs.map pyStrip).filter (fun p => !p.isEmpty) = [] := by
      rw [List.filter_eq_nil_iff]
      intro a ha
      rcases List.mem_map.mp ha with ⟨p, hp, rfl⟩
      simp [h p hp]
    simp [cellFinalText, hf, joinSep, clean_cell_text]

/-- C8 witness: a cell with one whitespace paragraph and one empty paragraph
normalizes to the placeholder. -/
theorem placeholder_rows_dropped_witness :
    cellFinalText (Cell.mk [" ".data, []] []) = ['–'] :=
  placeholder_rows_dropped.2 (Cell.mk [" ".data, []] []) (by decide)

/-- C10: the row-keeping test compares normalized cell text with the en-dash
glyph, so any row whose cells all normalize to `"–"` is dropped before header
assignment — including a cell whose source text literally is an en-dash,
which is thereby indistinguishable from missing content. -/
theorem endash_conflation :
    (∀ (pre post : List (List Cell)) (row : List Cell),
        (∀ c ∈ row, cellFinalText c = ['–']) →
        extractRows (pre ++ row :: post) = extractRows (pre ++ post)) ∧
    cellFinalText (Cell.mk ["–".data] []) = ['–'] ∧
    extract_table_data (Table.mk [[Cell.mk ["–".data] []]]) = [] := by
  refine ⟨?_, by decide, by decide⟩
  intro pre post row h
  induction pre with
  | nil =>
    simp only [List.nil_append, extractRows]
    have : (row.map cellFinalText).any (fun c => !(c == ['–'])) = false := by
      rw [List.any_eq_false]
      intro x hx
      rcases List.mem_map.mp hx with ⟨c, hc, rfl⟩
      simp [h c hc]
    simp [this]
  | cons p pre ih =>
    simp only [List.cons_append, extractRows]
    have ih2 : extractRows (pre.append (row :: post)) = extractRows (pre.append post) := ih
    rw [ih2]

/-- C10 witness: a table whose first row is a literal en-dash cell drops that
row; the survivor is the `"a"` row. -/
theorem endash_conflation_witness :
    extractRows ([] ++ [Cell.mk ["–".data] []] :: [[Cell.mk ["a".data] []]]) =
      extractRows ([] ++ [[Cell.mk ["a".data] []]]) :=
  endash_conflation.1 [] [[Cell.mk ["a".data] []]] [Cell.mk ["–".data] []]
    (by decide)

/-- C3: whenever the normalized form of a cell text contains `"total"`
case-insensitively, the normalization result is exactly the literal
`"Total"`; in particular `"Grand Total: 1,204"` normalizes to `"Total"`. -/
theorem total_collapse :
    (∀ t : List Char, hasTotal (clean_cell_text t) = true →
        clean_cell_text t = "Total".data) ∧
    clean_cell_text "Grand Total: 1,204".data = "Total".data := by
  refine ⟨?_, by decide⟩
  intro t h
  by_cases he : t.isEmpty
  · rw [clean_cell_text, if_pos he] at h
    exact absurd h (by decide)
  · rw [clean_cell_text, if_neg he] at h ⊢
    by_cases ht : hasTotal (pctSub (pyStrip (collapseWs (replaceChar '\t' ' '
        (replaceChar '\r' ' ' (replaceChar '\n' ' ' (escapePipes t))))))) = true
    · simp [format_percentages, ht]
    · simp [format_percentages, ht] at h

/-- C3 witness: the spec's example input. -/
theorem total_collapse_witness :
    clean_cell_text "Grand Total: 1,204".data = "Total".data :=
  total_collapse.1 "Grand Total: 1,204".data (by decide)

/-- C2 counterexample: for the one-cell table `[["a"]]` the word-document
flattener returns a non-empty result whose last line is the separator line,
not an empty line — the flattener itself appends no trailing empty line. -/
theorem blank_line_counterexample :
    process_table_proper_format (Table.mk [[Cell.mk ["a".data] []]]) ≠ [] ∧
    (process_table_proper_format (Table.mk [[Cell.mk ["a".data] []]])).getLast? ≠
      some ([] : List Char) := by
  decide

/-- C2 amended: the single empty line after a table is emitted by the caller
in the word pipeline (`word_to_markdown_pages` appends exactly one empty line
after the flattener's non-empty output), while in the presentation pipeline
the flattener's returned markdown contains its empty line immediately after
the last table line and immediately before the final data-link line (no
other line of the table block is empty); moreover, for every input table the
word-document flattener's own output never ends with an empty line. -/
theorem blank_line_amended :
    (∀ (lines : List (List Char)) (t : Table),
        process_table_proper_format t ≠ [] →
        append_markdown_table lines t =
          lines ++ process_table_proper_format t ++ [([] : List Char)]) ∧
    (∀ (pt : PptxTable) (p : List Char) (md : List (List Char)),
        pptx_process_table pt p = some md →
        ∃ tb, md = tb ++ [([] : List Char), viewTableLine p] ∧
          ∀ l ∈ tb, l ≠ ([] : List Char)) ∧
    (∀ (t : Table) (x : List Char),
        (process_table_proper_format t).getLast? = some x → x ≠ ([] : List Char)) := by
  refine ⟨?_, ?_, ?_⟩
  · intro lines t h
    unfold append_markdown_table
    rw [if_neg]
    simp [List.isEmpty_iff, h]
  · intro pt p md h
    unfold pptx_process_table at h
    cases hr : pt.rows.map (fun row => row.map pptxCellText) with
    | nil => rw [hr] at h; simp at h
    | cons header body =>
      rw [hr] at h
      simp only [Option.some.injEq] at h
      refine ⟨pipeRow header :: pptxSepRow header.length :: body.map pipeRow, ?_, ?_⟩
      · rw [← h]; simp
      · intro l hl
        rcases List.mem_cons.mp hl with h1 | hl
        · subst h1; simp [pipeRow]
        rcases List.mem_cons.mp hl with h2 | hl
        · subst h2; simp [pptxSepRow]
        · rcases List.mem_map.mp hl with ⟨r, _, rfl⟩
          simp [pipeRow]
  · intro t x h
    unfold process_table_proper_format at h
    split at h
    · simp at h
    · split at h
      · exact pnc_getLast_ne_nil h
      · unfold process_regular_table at h
        exact renderTableData_lines_ne_nil (getLast?_mem_list h)

/-- C2 witness: the amended contract at a one-cell word table and a one-cell
presentation table. -/
theorem blank_line_amended_witness :
    append_markdown_table [] (Table.mk [[Cell.mk ["a".data] []]]) =
      [] ++ process_table_proper_format (Table.mk [[Cell.mk ["a".data] []]]) ++
        [([] : List Char)] ∧
    (∃ tb, (["| A |".data, "|---|".data, ([] : List Char), viewTableLine []] :
        List (List Char)) = tb ++ [([] : List Char), viewTableLine []] ∧
      ∀ l ∈ tb, l ≠ ([] : List Char)) ∧
    "| --- |".data ≠ ([] : List Char) :=
  ⟨blank_line_amended.1 [] (Table.mk [[Cell.mk ["a".data] []]]) (by decide),
   blank_line_amended.2.1 (PptxTable.mk [["A".data]]) [] _ (by decide),
   blank_line_amended.2.2 (Table.mk [[Cell.mk ["a".data] []]]) "| --- |".data
     (by decide)⟩

/-- C1 counterexample: the presentation flattener emits body rows verbatim,
so for the ragged table with header `["A","B"]` and data row `["x"]` the body
line has 2 pipe-delimited fields' worth of pipes while the header line has 3
— the width invariant fails for the presentation reimplementation. -/
theorem width_invariant_counterexample :
    pptx_process_table (PptxTable.mk [["A".data, "B".data], ["x".data]]) [] =
      some ["| A | B |".data, "|---|---|".data, "| x |".data, ([] : List Char),
        viewTableLine []] ∧
    "| x |".data.count '|' = 2 ∧ "| A | B |".data.count '|' = 3 := by
  decide

/-- C1 amended: the width invariant holds for the word-document flattener:
every line of `process_regular_table`'s output — the separator line and every
body-row line — carries exactly as many pipe delimiters as the header line,
for every input table, ragged or not (cell text cannot contribute pipes,
since `clean_cell_text` escapes them). -/
theorem width_invariant_amended (t : Table) :
    (process_regular_table t).all
      (fun l => l.count '|' == ((process_regular_table t).headD []).count '|') = true := by
  have hrend : process_regular_table t = renderTableData (extract_table_data t) := rfl
  rw [List.all_eq_true]
  intro l hl
  rw [beq_iff_eq]
  rw [hrend] at hl ⊢
  cases hd : extract_table_data t with
  | nil => rw [hd] at hl; simp [renderTableData] at hl
  | cons header body =>
    rw [hd] at hl
    have hhead : header ∈ extract_table_data t := by
      rw [hd]; exact List.mem_cons_self header body
    obtain ⟨hhne, hhp⟩ := mem_extract_table_data hhead
    have hW : 0 < header.length := List.length_pos.mpr hhne
    have hheadcount : (pipeRow header).count '|' = header.length + 1 :=
      count_pipe_pipeRow hhne hhp
    have hgoalhead :
        (renderTableData (header :: body)).headD [] = pipeRow header := rfl
    rw [hgoalhead]
    simp only [renderTableData, List.mem_cons, List.mem_map] at hl
    rcases hl with h1 | h1 | ⟨r, hr, h1⟩
    · rw [h1]
    · rw [h1, hheadcount, count_pipe_pipeRow]
      · simp
      · intro habs
        rw [← List.length_eq_zero] at habs
        simp at habs
        exact hhne habs
      · intro cell hc
        rw [List.eq_of_mem_replicate hc]
        decide
    · obtain ⟨hrne, hrp⟩ :=
        mem_extract_table_data (show r ∈ extract_table_data t by
          rw [hd]; exact List.mem_cons_of_mem header hr)
      rw [← h1, hheadcount, count_pipe_pipeRow]
      · rw [padTrunc_length]
      · intro habs
        have := padTrunc_length header.length r
        rw [habs] at this
        simp at this
        omega
      · intro cell hc
        rcases mem_padTrunc hc with h2 | h2
        · exact hrp cell h2
        · rw [h2]; decide

/-- C4: when any cell of a non-empty table contains nested tables, the
flattener's output is exactly the outputs of the independently flattened
nested tables (each flattened by the same procedure, `process_regular_table`,
dropping those with no surviving rows) joined with a single blank line
between consecutive blocks; the output is a function of the nested tables
alone, so the containing cells' own paragraph text never appears. -/
theorem nested_table_precedence (t : Table)
    (h1 : t.rows.isEmpty = false)
    (h2 : t.rows.any (fun row => row.any (fun c => !c.tables.isEmpty)) = true) :
    process_table_proper_format t =
      joinBlank (((nestedTables t).map process_regular_table).filter
        (fun md => !md.isEmpty)) := by
  have hiff : ∀ nt : Table,
      (!(extract_table_data nt).isEmpty) = (!(process_regular_table nt).isEmpty) := by
    intro nt
    unfold process_regular_table
    cases extract_table_data nt <;> simp [renderTableData]
  have percell : ∀ l : List Table,
      ((l.map extract_table_data).filter (fun d => !d.isEmpty)).map renderTableData =
        (l.map process_regular_table).filter (fun md => !md.isEmpty) := by
    intro l
    induction l with
    | nil => rfl
    | cons nt l ih =>
      simp only [List.map_cons, List.filter_cons]
      rw [hiff nt]
      split
      · simp only [List.map_cons, ih]
        rfl
      · exact ih
  have hmain : process_table_proper_format t = process_nested_table_content t := by
    simp [process_table_proper_format, h1, h2]
  have hstep2 : process_nested_table_content t =
      joinBlank ((nestedTableDatas t).map renderTableData) := by
    unfold process_nested_table_content
    cases hdd : nestedTableDatas t with
    | nil => rfl
    | cons d rest =>
      simp only [joinBlank, List.map_cons, List.flatMap_map]
  have hstep3 : (nestedTableDatas t).map renderTableData =
      ((nestedTables t).map process_regular_table).filter (fun md => !md.isEmpty) := by
    unfold nestedTableDatas nestedTables
    simp only [List.map_flatMap, List.filter_flatMap]
    apply List.flatMap_congr
    intro row _
    apply List.flatMap_congr
    intro c _
    exact percell c.tables
  rw [hmain, hstep2, hstep3]

/-- C4 witness: a one-cell table whose cell has non-empty paragraph text
`"Para"` and one nested table; the emitted output is exactly the nested
table's independent rendering. -/
theorem nested_table_precedence_witness :
    process_table_proper_format (Table.mk [[Cell.mk ["Para".data]
        [Table.mk [[Cell.mk ["h".data] []], [Cell.mk ["v".data] []]]]]]) =
      joinBlank (((nestedTables (Table.mk [[Cell.mk ["Para".data]
          [Table.mk [[Cell.mk ["h".data] []], [Cell.mk ["v".data] []]]]]])).map
        process_regular_table).filter (fun md => !md.isEmpty)) :=
  nested_table_precedence _ rfl rfl

/-- C5: cell-text normalization is idempotent: applying `clean_cell_text`
(pipe escaping, newline/carriage-return/tab replacement, whitespace
collapsing and trimming, percent tightening, and the "total" substitution)
twice yields the same result as applying it once, for every cell text. -/
theorem normalization_idempotent (s : List Char) :
    clean_cell_text (clean_cell_text s) = clean_cell_text s := by
  by_cases he : s.isEmpty
  · have hs : s = [] := List.isEmpty_iff.mp he
    subst hs
    rfl
  · by_cases ht : hasTotal (pctSub (pyStrip (collapseWs (replaceChar '\t' ' '
        (replaceChar '\r' ' ' (replaceChar '\n' ' ' (escapePipes s))))))) = true
    · have hcs : clean_cell_text s = "Total".data := by
        rw [clean_cell_text, if_neg he]
        simp only [format_percentages]
        rw [if_pos ht]
      rw [hcs]
      decide
    · have hcs : clean_cell_text s = pctSub (pyStrip (collapseWs (replaceChar '\t' ' '
          (replaceChar '\r' ' ' (replaceChar '\n' ' ' (escapePipes s)))))) := by
        rw [clean_cell_text, if_neg he]
        simp only [format_percentages]
        rw [if_neg ht]
      rw [hcs]
      generalize hb : pyStrip (collapseWs (replaceChar '\t' ' ' (replaceChar '\r' ' '
        (replaceChar '\n' ' ' (escapePipes s))))) = b at hcs ht ⊢
      have hpipe : '|' ∉ pctSub b := by
        rw [← hcs]
        exact clean_no_pipe s
      have hnl : '\n' ∉ pctSub b := by
        rw [← hcs]
        exact space_char_not_mem_clean (by decide) (by decide) s
      have hcr : '\r' ∉ pctSub b := by
        rw [← hcs]
        exact space_char_not_mem_clean (by decide) (by decide) s
      have htb : '\t' ∉ pctSub b := by
        rw [← hcs]
        exact space_char_not_mem_clean (by decide) (by decide) s
      have hwsb : wsNormal b = true := by
        rw [← hb, pyStrip]
        exact wsNormal_dropTrailingWs (wsNormal_dropWhileP (wsNormal_collapseWs _))
      have hheadb : headNotSpace b = true := by
        rw [← hb, pyStrip]
        exact headNotSpace_dropTrailingWs (headNotSpace_dropWhileSpace _)
      have hlastb : lastNotSpace b = true := by
        rw [← hb, pyStrip]
        exact lastNotSpace_dropTrailingWs _
      have hwsr : wsNormal (pctSub b) = true := wsNormal_pctSub _ hwsb
      have hheadr : headNotSpace (pctSub b) = true := headNotSpace_pctSub hheadb
      have hlastr : lastNotSpace (pctSub b) = true := lastNotSpace_pctSub _ hlastb
      have hidem : pctSub (pctSub b) = pctSub b := pctSub_idem b
      by_cases hre : (pctSub b).isEmpty
      · rw [clean_cell_text, if_pos hre]
        exact (List.isEmpty_iff.mp hre).symm
      · rw [clean_cell_text, if_neg hre]
        show format_percentages (pyStrip (collapseWs (replaceChar '\t' ' '
          (replaceChar '\r' ' ' (replaceChar '\n' ' '
            (escapePipes (pctSub b))))))) = pctSub b
        rw [escapePipes_fix hpipe, replaceChar_fix hnl, replaceChar_fix hcr,
          replaceChar_fix htb, collapseWs_fix hwsr, pyStrip_fix hheadr hlastr]
        simp only [format_percentages]
        rw [hidem, if_neg ht]

end PrepData
